import Mathlib

/-!
Verification of the RAG retrieval core of the playwrightAI repository.

The TypeScript source is shallowly embedded:
- JS strings are modelled as `List Char`;
- JS number (IEEE float) arithmetic is idealised as exact arithmetic:
  vector components are `ℚ` and similarity scores live in `ℝ`
  (`Math.sqrt` becomes `Real.sqrt`);
- `Array.prototype.sort` with comparator `(a, b) => b.score - a.score`
  is modelled as the stable descending insertion sort
  (ECMAScript guarantees a stable sort);
- asynchronous calls to external backends (HTTP, filesystem) are modelled
  by passing the outcome of the call as an explicit argument.
-/

/-- JS strings, modelled as lists of characters. -/
abbrev Str := List Char

/-- The `type` enum of `IndexRecord.metadata`
(`src/rag/core/types.ts`): `'ac' | 'test' | 'flow' | 'requirement' | 'pattern'`. -/
inductive RecordType where
  | ac
  | test
  | flow
  | requirement
  | pattern
deriving DecidableEq

/-- Model of `IndexRecord.metadata` from `src/rag/core/types.ts`:
`{ created: string; author?: string; type: ... }`. -/
structure RecordMetadata where
  created : Str
  author : Option Str
  type : RecordType
deriving DecidableEq

/-- Model of `IndexRecord` from `src/rag/core/types.ts`. -/
structure IndexRecord where
  id : Str
  text : Str
  embedding : List ℚ
  sourceFile : Str
  metadata : RecordMetadata
deriving DecidableEq

/-- Model of `SearchResult` from `src/rag/core/types.ts`: a record plus its score. -/
structure SearchResult where
  record : IndexRecord
  score : ℝ

/-- The `dotProduct` accumulator of `cosineSimilarity`
(`SQLiteVectorStore.cosineSimilarity`, and the identical free function in
`src/rag/indexStore.ts`): `Σ a[i] * b[i]`. -/
def dotProduct (a b : List ℚ) : ℚ :=
  (List.zipWith (fun x y => x * y) a b).sum

/-- The `magnitudeA`/`magnitudeB` accumulators before the `Math.sqrt` call:
`Σ a[i] * a[i]`. -/
def sumSquares (a : List ℚ) : ℚ :=
  (a.map (fun x => x * x)).sum

/-- Model of `cosineSimilarity(a, b)` from `SQLiteVectorStore` (`src/unnamed/part_008`,
lines 169-188) and `src/rag/indexStore.ts` (lines 96-115, identical body):
return 0 on length mismatch; compute dot product and the two magnitudes in one
pass; return 0 if either magnitude is 0; otherwise dot / (magA * magB). -/
noncomputable def cosineSimilarity (a b : List ℚ) : ℝ :=
  if a.length ≠ b.length then 0
  else
    let magnitudeA : ℝ := Real.sqrt ((sumSquares a : ℚ) : ℝ)
    let magnitudeB : ℝ := Real.sqrt ((sumSquares b : ℚ) : ℝ)
    if magnitudeA = 0 ∨ magnitudeB = 0 then 0
    else ((dotProduct a b : ℚ) : ℝ) / (magnitudeA * magnitudeB)

lemma sumSquares_nonneg (a : List ℚ) : 0 ≤ sumSquares a := by
  refine List.sum_nonneg ?_
  intro x hx
  obtain ⟨y, _, rfl⟩ := List.mem_map.mp hx
  exact mul_self_nonneg y

lemma dotProduct_comm (a b : List ℚ) : dotProduct a b = dotProduct b a := by
  induction a generalizing b with
  | nil => cases b <;> simp [dotProduct]
  | cons x xs ih =>
    cases b with
    | nil => simp [dotProduct]
    | cons y ys =>
      simp only [dotProduct, List.zipWith_cons_cons, List.sum_cons] at *
      rw [mul_comm, ih ys]

lemma dotProduct_self (a : List ℚ) : dotProduct a a = sumSquares a := by
  induction a with
  | nil => simp [dotProduct, sumSquares]
  | cons x xs ih =>
    simp only [dotProduct, sumSquares, List.zipWith_cons_cons, List.map_cons,
      List.sum_cons] at *
    rw [ih]

/-- C2: for all vectors `a` and `b`, the similarity function returns 0 whenever
the lengths differ, and returns 0 whenever either vector has zero magnitude
(zero sum of squares, in particular a zero-length or all-zero vector); being a
total function, it does not raise in either case. -/
theorem cosineSimilarity_defensive_zero (a b : List ℚ)
    (h : a.length ≠ b.length ∨ sumSquares a = 0 ∨ sumSquares b = 0) :
    cosineSimilarity a b = 0 := by
  rcases h with h | h | h
  · simp [cosineSimilarity, h]
  · by_cases hl : a.length ≠ b.length
    · simp [cosineSimilarity, hl]
    · simp [cosineSimilarity, hl, h]
  · by_cases hl : a.length ≠ b.length
    · simp [cosineSimilarity, hl]
    · simp [cosineSimilarity, hl, h]

/-- Witness for C2 at a concrete input: `[1]` and `[1, 2]` have different
lengths, and their similarity is 0. -/
theorem cosineSimilarity_defensive_zero_witness :
    (([1] : List ℚ).length ≠ ([1, 2] : List ℚ).length ∨
      sumSquares [1] = 0 ∨ sumSquares ([1, 2] : List ℚ) = 0) ∧
    cosineSimilarity [1] [1, 2] = 0 :=
  ⟨Or.inl (by decide), cosineSimilarity_defensive_zero _ _ (Or.inl (by decide))⟩

/-- C8: for all equal-length vectors `a` and `b`,
`cosineSimilarity a b = cosineSimilarity b a`; and for every vector `a` of
nonzero magnitude, `cosineSimilarity a a = 1`. -/
theorem cosineSimilarity_symm_and_self :
    (∀ a b : List ℚ, a.length = b.length →
      cosineSimilarity a b = cosineSimilarity b a) ∧
    (∀ a : List ℚ, sumSquares a ≠ 0 → cosineSimilarity a a = 1) := by
  constructor
  · intro a b h
    unfold cosineSimilarity
    rw [h, dotProduct_comm]
    simp only [ne_eq, not_true_eq_false, if_false, ite_not]
    by_cases hz : Real.sqrt ((sumSquares a : ℚ) : ℝ) = 0 ∨
        Real.sqrt ((sumSquares b : ℚ) : ℝ) = 0
    · rw [if_pos hz, if_pos hz.symm]
    · rw [if_neg hz, if_neg (mt Or.symm hz), mul_comm]
  · intro a h
    have hnn : (0 : ℚ) ≤ sumSquares a := sumSquares_nonneg a
    have hpos : (0 : ℝ) < ((sumSquares a : ℚ) : ℝ) := by
      rw [Rat.cast_pos]
      exact lt_of_le_of_ne hnn (Ne.symm h)
    have hsq : Real.sqrt ((sumSquares a : ℚ) : ℝ) ≠ 0 :=
      ne_of_gt (Real.sqrt_pos.mpr hpos)
    unfold cosineSimilarity
    rw [if_neg (by simp), if_neg (by tauto), dotProduct_self,
      Real.mul_self_sqrt (le_of_lt hpos)]
    exact div_self (ne_of_gt hpos)

/-- Witness for C8 at concrete inputs: symmetry at `[1, 2]`, `[3, 4]` and
self-similarity 1 at `[1]`. -/
theorem cosineSimilarity_symm_and_self_witness :
    cosineSimilarity [1, 2] [3, 4] = cosineSimilarity [3, 4] [1, 2] ∧
    cosineSimilarity [1] [1] = 1 :=
  ⟨cosineSimilarity_symm_and_self.1 _ _ (by decide),
    cosineSimilarity_symm_and_self.2 _ (by simp [sumSquares])⟩

/-- The comparator `(a, b) => b.score - a.score` of the search pipeline, as the
ordering relation it induces: `a` may precede `b` exactly when
`b.score ≤ a.score` (descending order). -/
def scoreRel (a b : SearchResult) : Prop := b.score ≤ a.score

noncomputable instance : DecidableRel scoreRel :=
  fun a b => Real.decidableLE b.score a.score

instance : IsTotal SearchResult scoreRel := ⟨fun a b => le_total b.score a.score⟩

instance : IsTrans SearchResult scoreRel :=
  ⟨fun _ _ _ hab hbc => le_trans hbc hab⟩

/-- Model of `.sort((a, b) => b.score - a.score)`: ECMAScript's sort is stable, so this
is the stable descending-by-score sort, modelled as insertion sort with
`scoreRel`. -/
noncomputable def sortByScoreDesc (l : List SearchResult) : List SearchResult :=
  List.insertionSort scoreRel l

/-- The `.map` stage of `SQLiteVectorStore.search`: score every stored record
against the query with `cosineSimilarity`. -/
noncomputable def scoreRecords (queryEmbedding : List ℚ)
    (records : List IndexRecord) : List SearchResult :=
  records.map (fun r => ⟨r, cosineSimilarity queryEmbedding r.embedding⟩)

/-- The `.filter((s) => s.score >= threshold)` stage of
`SQLiteVectorStore.search`. -/
noncomputable def keptResults (queryEmbedding : List ℚ)
    (records : List IndexRecord) (threshold : ℝ) : List SearchResult :=
  (scoreRecords queryEmbedding records).filter
    (fun s => decide (threshold ≤ s.score))

/-- Model of `SQLiteVectorStore.search(queryEmbedding, topK, threshold)`
(`src/unnamed/part_008`, lines 130-147): score all records, keep scores
`>= threshold`, sort descending by score (stable), `slice(0, topK)`. -/
noncomputable def search (queryEmbedding : List ℚ) (records : List IndexRecord)
    (topK : Nat) (threshold : ℝ) : List SearchResult :=
  (sortByScoreDesc (keptResults queryEmbedding records threshold)).take topK

lemma filter_orderedInsert_score (c : ℝ) (a : SearchResult) :
    ∀ l : List SearchResult,
      (List.orderedInsert scoreRel a l).filter (fun s => decide (s.score = c)) =
        if a.score = c then
          a :: l.filter (fun s => decide (s.score = c))
        else l.filter (fun s => decide (s.score = c))
  | [] => by
    by_cases h : a.score = c <;> simp [List.orderedInsert, h]
  | b :: l => by
    by_cases hr : scoreRel a b
    · by_cases h : a.score = c <;>
        simp [List.orderedInsert, hr, h]
    · have hblt : a.score < b.score := lt_of_not_le hr
      by_cases h : a.score = c
      · have hb : b.score ≠ c := by
          intro hbc
          exact absurd (hbc.trans h.symm) (ne_of_gt hblt)
        simp [List.orderedInsert, hr, h, hb, filter_orderedInsert_score c a l]
      · by_cases hb : b.score = c <;>
          simp [List.orderedInsert, hr, h, hb, filter_orderedInsert_score c a l]

lemma filter_sortByScoreDesc (c : ℝ) :
    ∀ l : List SearchResult,
      (sortByScoreDesc l).filter (fun s => decide (s.score = c)) =
        l.filter (fun s => decide (s.score = c))
  | [] => rfl
  | a :: l => by
    have ih := filter_sortByScoreDesc c l
    simp only [sortByScoreDesc, List.insertionSort] at ih ⊢
    rw [filter_orderedInsert_score]
    by_cases h : a.score = c <;> simp [h, ih, List.filter_cons]

/-- C1: `search` returns exactly the records scoring at least the threshold
(inclusive lower bound), sorted in descending score with ties kept in the
store's scan order (stability, stated as: restricting the sorted list to any
fixed score value yields the same sequence as restricting the scan-order
list), truncated to the first `topK`. -/
theorem search_threshold_sort_truncate (queryEmbedding : List ℚ)
    (records : List IndexRecord) (topK : Nat) (threshold : ℝ) :
    search queryEmbedding records topK threshold =
      (sortByScoreDesc (keptResults queryEmbedding records threshold)).take topK
    ∧ (∀ s, s ∈ keptResults queryEmbedding records threshold ↔
        s ∈ scoreRecords queryEmbedding records ∧ threshold ≤ s.score)
    ∧ List.Perm (sortByScoreDesc (keptResults queryEmbedding records threshold))
        (keptResults queryEmbedding records threshold)
    ∧ List.Sorted scoreRel
        (sortByScoreDesc (keptResults queryEmbedding records threshold))
    ∧ (∀ c : ℝ,
        (sortByScoreDesc (keptResults queryEmbedding records threshold)).filter
            (fun s => decide (s.score = c)) =
          (keptResults queryEmbedding records threshold).filter
            (fun s => decide (s.score = c)))
    ∧ (search queryEmbedding records topK threshold).length ≤ topK := by
  refine ⟨rfl, ?_, ?_, ?_, ?_, ?_⟩
  · intro s
    simp [keptResults, List.mem_filter]
  · exact List.perm_insertionSort scoreRel _
  · exact List.sorted_insertionSort scoreRel _
  · intro c
    exact filter_sortByScoreDesc c _
  · exact (List.length_take _ _).le.trans (min_le_left _ _)

/-- The `record.metadata.author || null` coercion performed by
`SQLiteVectorStore.addRecord` when binding the SQL parameters: a missing
author stays missing, and — because the empty string is falsy in JS — an
empty-string author is stored as NULL as well. -/
def authorOrNull : Option Str → Option Str
  | none => none
  | some s => if s = [] then none else some s

/-- The record as it is persisted by `addRecord` and read back by
`getRecord`/`getAllRecords`: identical to the input except for the
`author || null` coercion (the JSON round-trip of the embedding is exact in
this idealisation). -/
def storedRecord (r : IndexRecord) : IndexRecord :=
  { r with metadata := { r.metadata with author := authorOrNull r.metadata.author } }

/-- Model of `SQLiteVectorStore.addRecord` (`src/unnamed/part_008`, lines 43-61):
`INSERT OR REPLACE` keyed on the `id` primary key.  SQLite deletes any
conflicting row and inserts the new row with a fresh rowid, so in scan
(rowid) order the table is the old rows minus any row with this id, with the
new row appended. -/
def addRecord (r : IndexRecord) (db : List IndexRecord) : List IndexRecord :=
  db.filter (fun x => decide (x.id ≠ r.id)) ++ [storedRecord r]

/-- Model of `SQLiteVectorStore.getRecord(id)` (`src/unnamed/part_008`, lines 63-82):
`SELECT * FROM records WHERE id = ?`, `null` when absent. -/
def getRecord (id : Str) (db : List IndexRecord) : Option IndexRecord :=
  db.find? (fun x => decide (x.id = id))

/-- Model of `SQLiteVectorStore.getRecordCount()` (`src/unnamed/part_008`,
lines 122-128): `SELECT COUNT(*)`. -/
def getRecordCount (db : List IndexRecord) : Nat := db.length

lemma addRecord_addRecord (r : IndexRecord) (db : List IndexRecord) :
    addRecord r (addRecord r db) = addRecord r db := by
  unfold addRecord
  rw [List.filter_append, List.filter_filter]
  simp [storedRecord]

lemma find?_append_of_none {p : IndexRecord → Bool} {l₁ l₂ : List IndexRecord}
    (h : ∀ x ∈ l₁, p x = false) :
    List.find? p (l₁ ++ l₂) = List.find? p l₂ := by
  induction l₁ with
  | nil => rfl
  | cons a t ih =>
    have ha := h a (List.mem_cons_self a t)
    simp only [List.cons_append, List.find?, ha]
    exact ih (fun x hx => h x (List.mem_cons_of_mem a hx))

lemma getRecord_addRecord (r : IndexRecord) (db : List IndexRecord) :
    getRecord r.id (addRecord r db) = some (storedRecord r) := by
  unfold getRecord addRecord
  rw [find?_append_of_none]
  · simp [List.find?, storedRecord]
  · intro x hx
    have := List.of_mem_filter hx
    simpa using this

/-- Counterexample to C3 as stated: a record whose `author` is the empty
string does not round-trip through `addRecord`/`getRecord` — the
`author || null` binding stores it as NULL, so the returned record differs
from the one that was added. -/
def emptyAuthorRecord : IndexRecord :=
  { id := "a".toList
    text := "t".toList
    embedding := [1]
    sourceFile := "f".toList
    metadata := { created := "c".toList, author := some [], type := .ac } }

/-- Counterexample for C3: after `addRecord emptyAuthorRecord` twice on an
empty store, `getRecord` does not return a record equal to the one added
(its author came back as `none`, not `some ""`). -/
theorem addRecord_roundtrip_counterexample :
    getRecord emptyAuthorRecord.id
        (addRecord emptyAuthorRecord (addRecord emptyAuthorRecord [])) ≠
      some emptyAuthorRecord := by
  rw [addRecord_addRecord, getRecord_addRecord]
  simp [storedRecord, authorOrNull, emptyAuthorRecord]

/-- C3 (amended): on any store state, `addRecord r` twice leaves
`getRecordCount` the same as calling it once; `addRecord` with an existing id
replaces the stored text/embedding/sourceFile/metadata wholesale —
`getRecord r.id` afterwards returns exactly the freshly stored record, which
equals `r` whenever `r.metadata.author` is not the empty string (an
empty-string author is normalised to NULL by the `author || null` binding). -/
theorem addRecord_upsert_idempotent (db : List IndexRecord) (r : IndexRecord)
    (h : r.metadata.author ≠ some []) :
    getRecordCount (addRecord r (addRecord r db)) =
      getRecordCount (addRecord r db)
    ∧ getRecord r.id (addRecord r (addRecord r db)) = some r
    ∧ getRecord r.id (addRecord r db) = some r := by
  have hstored : storedRecord r = r := by
    obtain ⟨i, t, e, f, ⟨cr, au, ty⟩⟩ := r
    simp only [storedRecord, authorOrNull] at *
    cases au with
    | none => rfl
    | some s =>
      have hs : s ≠ [] := fun hnil => h (by rw [hnil])
      simp [hs]
  refine ⟨by rw [addRecord_addRecord], ?_, ?_⟩
  · rw [addRecord_addRecord, getRecord_addRecord, hstored]
  · rw [getRecord_addRecord, hstored]

/-- Witness for C3 (amended) at a concrete input: a record with no author
upserted twice into an empty store. -/
def plainRecord : IndexRecord :=
  { id := "a".toList
    text := "t".toList
    embedding := [1]
    sourceFile := "f".toList
    metadata := { created := "c".toList, author := none, type := .ac } }

theorem addRecord_upsert_idempotent_witness :
    plainRecord.metadata.author ≠ some [] ∧
    getRecordCount (addRecord plainRecord (addRecord plainRecord [])) =
      getRecordCount (addRecord plainRecord []) ∧
    getRecord plainRecord.id (addRecord plainRecord (addRecord plainRecord [])) =
      some plainRecord :=
  ⟨by simp [plainRecord],
    (addRecord_upsert_idempotent [] plainRecord (by simp [plainRecord])).1,
    (addRecord_upsert_idempotent [] plainRecord (by simp [plainRecord])).2.1⟩

/-- The legacy module-level in-process index store of
`src/rag/indexStore.ts`: `{ records, version, lastUpdated }`. -/
structure IndexStoreState where
  records : List IndexRecord
  version : Str
  lastUpdated : Str

namespace IndexStore

/-- Model of `addRecord` from `src/rag/indexStore.ts` (lines 56-59):
`memoryStore.records.push(record); saveIndex()` — an unconditional append;
`saveIndex` refreshes `lastUpdated` (the timestamp is passed in explicitly
here) and persists to disk (an I/O effect outside the model). -/
def addRecord (now : Str) (r : IndexRecord) (s : IndexStoreState) :
    IndexStoreState :=
  { s with records := s.records ++ [r], lastUpdated := now }

/-- Model of `getAllRecords` from `src/rag/indexStore.ts` (lines 129-131). -/
def getAllRecords (s : IndexStoreState) : List IndexRecord := s.records

/-- Model of `getRecordCount` from `src/rag/indexStore.ts` (lines 136-138). -/
def getRecordCount (s : IndexStoreState) : Nat := s.records.length

end IndexStore

/-- C10: the legacy in-process index store does not upsert: `addRecord`
appends unconditionally, so adding the same record twice grows
`getRecordCount` by 2 and leaves two entries with that id in
`getAllRecords` (the count of entries with the id grows by exactly 2). -/
theorem indexStore_addRecord_appends (s : IndexStoreState) (r : IndexRecord)
    (now₁ now₂ : Str) :
    IndexStore.getRecordCount
        (IndexStore.addRecord now₂ r (IndexStore.addRecord now₁ r s)) =
      IndexStore.getRecordCount s + 2
    ∧ ((IndexStore.getAllRecords
          (IndexStore.addRecord now₂ r (IndexStore.addRecord now₁ r s))).filter
        (fun x => decide (x.id = r.id))).length =
      ((IndexStore.getAllRecords s).filter
        (fun x => decide (x.id = r.id))).length + 2 := by
  constructor
  · simp [IndexStore.getRecordCount, IndexStore.addRecord]
  · simp [IndexStore.getAllRecords, IndexStore.addRecord, List.filter_append]

/-- JS `String.prototype.includes`, and the occurrence test used throughout:
does `needle` occur as a contiguous substring? -/
def hasSubstr (needle : List Char) : List Char → Bool
  | [] => needle.isEmpty
  | c :: t => needle.isPrefixOf (c :: t) || hasSubstr needle t

/-- Model of the replacement-string escapes interpreted by JS
`String.prototype.replace` when the replacement is a string: `$$` yields a
literal `$`; `$&` the matched substring; a `$` followed by a backquote the
portion of the original string preceding the match; `$\x27` (dollar,
apostrophe) the portion following the match.  The escaped placeholder regex
has no capture groups, so `$n` and `$<name>` are literal, as is any other
`$`-sequence and a trailing lone `$`. -/
def expandReplacement (matched before after : Str) : Str → Str
  | [] => []
  | c :: t =>
    if c = '$' then
      match t with
      | [] => ['$']
      | d :: t' =>
        if d = '$' then '$' :: expandReplacement matched before after t'
        else if d = '&' then matched ++ expandReplacement matched before after t'
        else if d = '\x60' then before ++ expandReplacement matched before after t'
        else if d = '\x27' then after ++ expandReplacement matched before after t'
        else '$' :: d :: expandReplacement matched before after t'
    else c :: expandReplacement matched before after t

/-- One pass of the global literal-pattern `String.prototype.replace`
(`result.replace(escapedRegex, value)`): scan left to right; at each position
where the (nonempty) pattern `p :: ps` matches, emit the replacement — with
its `$`-escapes expanded against the original string `orig` and the current
match position `pos` — and continue after the match.  The fuel argument is
the number of characters still to be scanned; every step consumes at least
one character, so fuel equal to the length of the scanned string suffices
(it keeps the recursion structural so concrete instances reduce in the
kernel). -/
def replaceAllAux (p : Char) (ps rep orig : List Char) :
    Nat → Nat → List Char → List Char
  | _, _, [] => []
  | 0, _, s => s
  | fuel + 1, pos, c :: t =>
    if (p :: ps).isPrefixOf (c :: t) then
      expandReplacement (p :: ps) (orig.take pos)
          (orig.drop (pos + (p :: ps).length)) rep ++
        replaceAllAux p ps rep orig fuel (pos + (p :: ps).length)
          (t.drop ps.length)
    else
      c :: replaceAllAux p ps rep orig fuel (pos + 1) t

/-- Global replacement of a literal pattern, the semantics of
`result.replace(new RegExp(escaped(pattern), 'g'), value)` in
`SimpleRenderer.render`, including the `$`-escape expansion of the
replacement string. -/
def replaceAll (s pat rep : List Char) : List Char :=
  match pat with
  | [] => s
  | p :: ps => replaceAllAux p ps rep s s.length 0 s

/-- The `{{key}}` token built by `SimpleRenderer.render` for one entry of the
values map. -/
def placeholderToken (key : Str) : Str :=
  '\x7b' :: '\x7b' :: (key ++ ['\x7d', '\x7d'])

/-- Model of `SimpleRenderer.render(template, values)` (`src/unnamed/part_008`,
lines 201-211): iterate over the entries of `values` (insertion order) and
globally replace the entry's `{{key}}` token by the entry's value, or by the
literal `(empty)` when the value is the (falsy) empty string.  Keys that are
not entries of `values` are never looked at. -/
def render (template : Str) (values : List (Str × Str)) : Str :=
  values.foldl
    (fun result kv =>
      replaceAll result (placeholderToken kv.1)
        (if kv.2 = [] then "(empty)".toList else kv.2))
    template

/-- Counterexample for C4: rendering the template `{{name}}` with an empty
values map leaves the placeholder in the output exactly as it was — it is
not substituted with the `(empty)` marker (the marker does not even occur in
the output). -/
theorem render_missing_key_counterexample :
    render "\x7b\x7bname\x7d\x7d".toList [] = "\x7b\x7bname\x7d\x7d".toList ∧
    hasSubstr "(empty)".toList (render "\x7b\x7bname\x7d\x7d".toList []) =
      false := by
  exact ⟨rfl, by decide⟩

lemma hasSubstr_cons_false {needle : Str} {c : Char} {t : Str}
    (h : hasSubstr needle (c :: t) = false) :
    needle.isPrefixOf (c :: t) = false ∧ hasSubstr needle t = false := by
  simpa [hasSubstr, Bool.or_eq_false_iff] using h

lemma expandReplacement_of_no_dollar :
    ∀ (rep : Str), '$' ∉ rep → ∀ (matched before after : Str),
      expandReplacement matched before after rep = rep := by
  intro rep
  induction rep with
  | nil => intro _ _ _ _; rfl
  | cons c t ih =>
    intro h matched before after
    have hc : c ≠ '$' := fun hh => h (hh ▸ List.mem_cons_self c t)
    have ht : '$' ∉ t := fun hm => h (List.mem_cons_of_mem c hm)
    unfold expandReplacement
    rw [if_neg hc, ih ht matched before after]

lemma replaceAllAux_canonical (p : Char) (ps rep : Str) (hrep : '$' ∉ rep) :
    ∀ (n : Nat) (s orig : Str) (fuel pos : Nat), s.length ≤ n → s.length ≤ fuel →
      replaceAllAux p ps rep orig fuel pos s = replaceAll s (p :: ps) rep := by
  intro n
  induction n with
  | zero =>
    intro s orig fuel pos hn _
    have hs : s = [] := List.eq_nil_of_length_eq_zero (Nat.le_zero.mp hn)
    subst hs
    cases fuel <;> rfl
  | succ m ih =>
    intro s orig fuel pos hn hf
    cases s with
    | nil => cases fuel <;> rfl
    | cons c t =>
      cases fuel with
      | zero => simp at hf
      | succ f =>
        have hn' : t.length ≤ m := by simpa using hn
        have hf' : t.length ≤ f := by simpa using hf
        have hdl : (t.drop ps.length).length ≤ t.length := by
          rw [List.length_drop]
          omega
        cases hm : (p :: ps).isPrefixOf (c :: t) with
        | true =>
          simp only [replaceAll, List.length_cons]
          unfold replaceAllAux
          simp only [hm, if_true]
          rw [expandReplacement_of_no_dollar _ hrep,
            expandReplacement_of_no_dollar _ hrep]
          congr 1
          rw [ih (t.drop ps.length) orig f (pos + (p :: ps).length)
              (le_trans hdl hn') (le_trans hdl hf'),
            ih (t.drop ps.length) (c :: t) t.length (0 + (p :: ps).length)
              (le_trans hdl hn') (le_trans hdl (le_refl _))]
        | false =>
          simp only [replaceAll, List.length_cons]
          unfold replaceAllAux
          simp only [hm, Bool.false_eq_true, if_false]
          congr 1
          rw [ih t orig f (pos + 1) hn' hf',
            ih t (c :: t) t.length (0 + 1) hn' (le_refl _)]

lemma replaceAllAux_no_occurrence (p : Char) (ps rep : Str) :
    ∀ (s : Str), hasSubstr (p :: ps) s = false →
      ∀ (orig : Str) (fuel pos : Nat), s.length ≤ fuel →
        replaceAllAux p ps rep orig fuel pos s = s := by
  intro s
  induction s with
  | nil =>
    intro _ orig fuel pos _
    cases fuel <;> rfl
  | cons c t ih =>
    intro h orig fuel pos hf
    obtain ⟨h1, h2⟩ := hasSubstr_cons_false h
    cases fuel with
    | zero => simp at hf
    | succ f =>
      unfold replaceAllAux
      simp only [h1, Bool.false_eq_true, if_false]
      rw [ih h2 orig f (pos + 1) (by simpa using hf)]

/-- A string in which the pattern never occurs passes through `replaceAll`
unchanged. -/
lemma replaceAll_no_occurrence (s pat rep : Str)
    (h : hasSubstr pat s = false) : replaceAll s pat rep = s := by
  cases pat with
  | nil => rfl
  | cons p ps =>
    exact replaceAllAux_no_occurrence p ps rep s h s s.length 0 (le_refl _)

lemma isPrefixOf_false_of_append (pat A B : Str) (hlen : pat.length ≤ A.length)
    (h : pat.isPrefixOf A = false) : pat.isPrefixOf (A ++ B) = false := by
  cases hc : pat.isPrefixOf (A ++ B) with
  | false => rfl
  | true =>
    exfalso
    have hp : pat <+: A ++ B := List.isPrefixOf_iff_prefix.mp hc
    have htake : pat = (A ++ B).take pat.length :=
      List.prefix_iff_eq_take.mp hp
    rw [List.take_append_eq_append_take, Nat.sub_eq_zero_of_le hlen,
      List.take_zero, List.append_nil] at htake
    have hpa : pat <+: A := by
      rw [List.prefix_iff_eq_take]
      exact htake
    rw [List.isPrefixOf_iff_prefix.mpr hpa] at h
    exact Bool.true_eq_false.mp h

lemma hasSubstr_nonempty_prefix {p : Char} {ps s : Str}
    (h : (p :: ps).isPrefixOf s = true) : hasSubstr (p :: ps) s = true := by
  cases s with
  | nil => simp [List.isPrefixOf] at h
  | cons c t => simp [hasSubstr, h]

lemma replaceAll_cons_no_match (p : Char) (ps rep : Str) (c : Char) (t : Str)
    (hm : (p :: ps).isPrefixOf (c :: t) = false) (hrep : '$' ∉ rep) :
    replaceAll (c :: t) (p :: ps) rep = c :: replaceAll t (p :: ps) rep := by
  have key : replaceAllAux p ps rep (c :: t) (t.length + 1) 0 (c :: t) =
      c :: replaceAll t (p :: ps) rep := by
    unfold replaceAllAux
    simp only [hm, Bool.false_eq_true, if_false]
    congr 1
    exact replaceAllAux_canonical p ps rep hrep t.length t (c :: t) t.length
      (0 + 1) (le_refl _) (le_refl _)
  simpa only [replaceAll, List.length_cons] using key

lemma replaceAll_head_match (p : Char) (ps rep post : Str) (hrep : '$' ∉ rep) :
    replaceAll ((p :: ps) ++ post) (p :: ps) rep =
      rep ++ replaceAll post (p :: ps) rep := by
  have hpre : (p :: ps).isPrefixOf (p :: (ps ++ post)) = true := by
    rw [List.isPrefixOf_iff_prefix, ← List.cons_append]
    exact List.prefix_append _ _
  have hlen : post.length ≤ (ps ++ post).length := by
    rw [List.length_append]
    omega
  have key : replaceAllAux p ps rep (p :: (ps ++ post))
      ((ps ++ post).length + 1) 0 (p :: (ps ++ post)) =
      rep ++ replaceAll post (p :: ps) rep := by
    unfold replaceAllAux
    simp only [hpre, if_true]
    rw [expandReplacement_of_no_dollar _ hrep]
    congr 1
    rw [List.drop_left]
    exact replaceAllAux_canonical p ps rep hrep post.length post
      (p :: (ps ++ post)) (ps ++ post).length (0 + (p :: ps).length)
      (le_refl _) hlen
  simpa only [replaceAll, List.cons_append, List.length_cons] using key

/-- Leftmost-occurrence decomposition of `replaceAll` for `$`-free
replacements: if the pattern has no occurrence starting inside `pre`
(equivalently, none inside `pre ++ pat.dropLast`), the occurrence at the
`pre`/`pat` boundary is replaced and replacement continues in `post`. -/
lemma replaceAll_leftmost (pat rep pre post : Str) (hpat : pat ≠ [])
    (hrep : '$' ∉ rep)
    (hnb : hasSubstr pat (pre ++ pat.dropLast) = false) :
    replaceAll (pre ++ pat ++ post) pat rep =
      pre ++ rep ++ replaceAll post pat rep := by
  cases pat with
  | nil => exact absurd rfl hpat
  | cons p ps =>
    clear hpat
    induction pre with
    | nil =>
      simpa using replaceAll_head_match p ps rep post hrep
    | cons c pre' ihp =>
      have hsplit := hasSubstr_cons_false (by simpa using hnb)
      have hnb' : hasSubstr (p :: ps) (pre' ++ (p :: ps).dropLast) = false :=
        hsplit.2
      have h1 : (p :: ps).isPrefixOf
          ((c :: pre') ++ (p :: ps).dropLast) = false := by
        simpa using hsplit.1
      have hnp : (p :: ps).isPrefixOf
          ((c :: pre') ++ (p :: ps) ++ post) = false := by
        have hdecomp : (c :: pre') ++ (p :: ps) ++ post =
            ((c :: pre') ++ (p :: ps).dropLast) ++
              ((p :: ps).getLast (List.cons_ne_nil p ps) :: post) := by
          conv_lhs =>
            rw [← @List.dropLast_append_getLast _ (p :: ps)
              (List.cons_ne_nil p ps)]
          simp [List.append_assoc]
        rw [hdecomp]
        refine isPrefixOf_false_of_append _ _ _ ?_ h1
        simp only [List.length_append, List.length_cons, List.length_dropLast]
        omega
      have hnp' : (p :: ps).isPrefixOf
          (c :: (pre' ++ (p :: ps) ++ post)) = false := by
        simpa using hnp
      have hstep := replaceAll_cons_no_match p ps rep c
        (pre' ++ (p :: ps) ++ post) hnp' hrep
      calc replaceAll ((c :: pre') ++ (p :: ps) ++ post) (p :: ps) rep
          = replaceAll (c :: (pre' ++ (p :: ps) ++ post)) (p :: ps) rep := by
            simp
        _ = c :: replaceAll (pre' ++ (p :: ps) ++ post) (p :: ps) rep := hstep
        _ = c :: (pre' ++ rep ++ replaceAll post (p :: ps) rep) := by
            rw [ihp hnb']
        _ = (c :: pre') ++ rep ++ replaceAll post (p :: ps) rep := by
            simp

lemma render_of_no_placeholder :
    ∀ (values : List (Str × Str)) (template : Str),
      (∀ kv ∈ values, hasSubstr (placeholderToken kv.1) template = false) →
      render template values = template := by
  intro values
  induction values with
  | nil => intro t _; rfl
  | cons kv vs ih =>
    intro t h
    have h0 := h kv (List.mem_cons_self kv vs)
    have hrest : ∀ kv' ∈ vs, hasSubstr (placeholderToken kv'.1) t = false :=
      fun kv' hm => h kv' (List.mem_cons_of_mem kv hm)
    have ih' := ih t hrest
    simp only [render, List.foldl_cons] at *
    rw [replaceAll_no_occurrence _ _ _ h0]
    exact ih'

/-- C4 (amended): `render` substitutes only the placeholders whose keys are
present in the values map; a placeholder whose key is missing from the values
map is left in the output as-is — universally, a template in which no present
key's `{{key}}` token occurs is returned unchanged (first conjunct).  For
each entry processed, `render` performs one global replacement of that
entry's token by the entry's value — by the marker `(empty)` when the value
is the falsy empty string (third conjunct) — and a global replacement
replaces every occurrence, left to right: for a `$`-free replacement, if no
occurrence of the pattern starts inside `pre`, then
`replaceAll (pre ++ pat ++ post)` rewrites the boundary occurrence and
continues in `post` (second conjunct). -/
theorem render_present_keys_only :
    (∀ (template : Str) (values : List (Str × Str)),
      (∀ kv ∈ values, hasSubstr (placeholderToken kv.1) template = false) →
      render template values = template)
    ∧ (∀ (pat rep pre post : Str), pat ≠ [] → '$' ∉ rep →
        hasSubstr pat (pre ++ pat.dropLast) = false →
        replaceAll (pre ++ pat ++ post) pat rep =
          pre ++ rep ++ replaceAll post pat rep)
    ∧ (∀ (template k v : Str) (values : List (Str × Str)),
        render template ((k, v) :: values) =
          render (replaceAll template (placeholderToken k)
            (if v = [] then "(empty)".toList else v)) values) := by
  refine ⟨?_, ?_, ?_⟩
  · exact fun t vs h => render_of_no_placeholder vs t h
  · exact fun pat rep pre post h1 h2 h3 =>
      replaceAll_leftmost pat rep pre post h1 h2 h3
  · intro t k v vs
    rfl

/-- Witness for C4 (amended) at concrete inputs: a template whose only
placeholder key is absent from the values map renders unchanged; the
leftmost `{{a}}` in `"z {{a}} w"` is replaced by `"x"`; and one render step
on a present key with the empty value substitutes the `(empty)` marker. -/
theorem render_present_keys_only_witness :
    render "\x7b\x7bname\x7d\x7d".toList [("a".toList, "x".toList)] =
      "\x7b\x7bname\x7d\x7d".toList
    ∧ replaceAll ("z ".toList ++ "\x7b\x7ba\x7d\x7d".toList ++ " w".toList)
        "\x7b\x7ba\x7d\x7d".toList "x".toList =
      "z ".toList ++ "x".toList ++
        replaceAll " w".toList "\x7b\x7ba\x7d\x7d".toList "x".toList
    ∧ render "t".toList [("a".toList, [])] =
      render (replaceAll "t".toList (placeholderToken "a".toList)
        "(empty)".toList) [] :=
  ⟨render_present_keys_only.1 _ _ (by decide),
    render_present_keys_only.2.1 _ _ _ _ (by decide) (by decide) (by decide),
    render_present_keys_only.2.2 _ _ _ _⟩

/-- JS `String.prototype.toLowerCase` (ASCII-level model). -/
def lower (s : Str) : Str := s.map Char.toLower

/-- Worker for `String.prototype.split(/\s+/)`: `acc` is the current token in
reverse; a whitespace character ends the token and the rest of its whitespace
run is skipped.  The fuel argument bounds the number of characters left and
keeps the recursion structural; every step consumes at least one character,
so fuel equal to the string length suffices. -/
def splitWsAux (acc : List Char) : Nat → List Char → List (List Char)
  | _, [] => [acc.reverse]
  | 0, _ => [acc.reverse]
  | fuel + 1, c :: cs =>
    if c.isWhitespace then
      acc.reverse :: splitWsAux [] fuel (cs.dropWhile Char.isWhitespace)
    else
      splitWsAux (c :: acc) fuel cs

/-- Model of `query.split(/\s+/)` as used by `SemanticRetriever.rerank`: split on runs
of whitespace; a leading (resp. trailing) run yields a leading (resp.
trailing) empty token, and the empty string yields `[""]`. -/
def splitWs (s : Str) : List Str := splitWsAux [] s.length s

/-- Model of `SemanticRetriever.rerank(query, results)` (`src/unnamed/part_009`, lines
38-61): for each result, start from `boost = 1`, add `0.1` for every
lower-cased whitespace-separated keyword of the query that occurs as a
substring of the lower-cased record text, multiply the score by `boost`, then
re-sort with `(a, b) => b.score - a.score`. -/
noncomputable def rerank (query : Str) (results : List SearchResult) :
    List SearchResult :=
  sortByScoreDesc (results.map (fun r =>
    ⟨r.record, r.score * ((splitWs (lower query)).foldl
      (fun boost kw =>
        if hasSubstr kw (lower r.record.text) then boost + 1 / 10 else boost)
      1)⟩))

/-- Model of `SemanticRetriever`'s constructor options (`src/unnamed/part_009`, lines
14-18): `{ topK: number; threshold: number }`. -/
structure RetrieverOptions where
  topK : Nat
  threshold : ℝ

/-- Model of `SemanticRetriever.retrieveByVector(queryEmbedding, topK)`
(`src/unnamed/part_009`, lines 25-36).  The JS parameter default `topK = 5`
is modelled by an `Option Nat` argument defaulted with `getD 5`; the body
then passes `topK || this.options.topK` — `0` being the only falsy number
reachable here — together with the configured threshold to the store's
`search`. -/
noncomputable def retrieveByVector (store : List IndexRecord)
    (options : RetrieverOptions) (queryEmbedding : List ℚ)
    (topK : Option Nat) : List SearchResult :=
  search queryEmbedding store
    (if topK.getD 5 = 0 then options.topK else topK.getD 5)
    options.threshold

/-- Number of query keywords found in the record text, spelled per the spec:
the case-insensitive whitespace-separated keywords of the query that occur as
substrings of the record text. -/
def matchedKeywordCount (query text : Str) : Nat :=
  ((splitWs (lower query)).filter (fun kw => hasSubstr kw (lower text))).length

lemma boost_foldl (text : Str) (kws : List Str) (b : ℝ) :
    kws.foldl
        (fun boost kw => if hasSubstr kw text then boost + 1 / 10 else boost)
        b =
      b + ((kws.filter (fun kw => hasSubstr kw text)).length : ℝ) * (1 / 10) := by
  induction kws generalizing b with
  | nil => simp
  | cons k t ih =>
    by_cases hk : hasSubstr k text = true
    · simp only [List.foldl_cons, List.filter_cons, hk, if_pos, if_true,
        List.length_cons, ih]
      push_cast
      ring
    · simp only [List.foldl_cons, List.filter_cons, hk, if_false,
        Bool.false_eq_true, ih]

/-- C5 (amended): `rerank` boosts multiplicatively, not by a flat increment —
each result's score is multiplied by `1 + 0.1 × (number of case-insensitive
query keywords occurring as substrings of the record text)` — and the boosted
results are re-sorted in descending score order (the output is a permutation
of the boosted list, sorted descending). -/
theorem rerank_multiplicative_boost (query : Str) (results : List SearchResult) :
    List.Perm (rerank query results)
      (results.map (fun r =>
        ⟨r.record,
          r.score * (1 + (matchedKeywordCount query r.record.text : ℝ) * (1 / 10))⟩))
    ∧ List.Sorted scoreRel (rerank query results) := by
  constructor
  · unfold rerank sortByScoreDesc
    refine (List.perm_insertionSort scoreRel _).trans ?_
    have hfun : (fun r : SearchResult =>
        (⟨r.record, r.score * ((splitWs (lower query)).foldl
          (fun boost kw =>
            if hasSubstr kw (lower r.record.text) then boost + 1 / 10 else boost)
          1)⟩ : SearchResult)) =
        (fun r : SearchResult =>
          ⟨r.record,
            r.score * (1 + (matchedKeywordCount query r.record.text : ℝ) * (1 / 10))⟩) := by
      funext r
      rw [boost_foldl]
      rfl
    rw [hfun]
  · exact List.sorted_insertionSort scoreRel _

/-- A concrete record used by the rerank and retriever counterexamples. -/
def abcRecord : IndexRecord :=
  { id := "r".toList
    text := "abc".toList
    embedding := [1]
    sourceFile := "f".toList
    metadata := { created := "c".toList, author := none, type := .ac } }

/-- Counterexample for C5: with query `"abc"` and a single result of score
`1/2` whose text contains the keyword, `rerank` yields score
`1/2 * (1 + 0.1) = 0.55`, not the flat increment `1/2 + 0.1 = 0.6` the claim
describes. -/
theorem rerank_flat_increment_counterexample :
    rerank "abc".toList [⟨abcRecord, 1 / 2⟩] =
      [⟨abcRecord, 1 / 2 * (1 + 1 / 10)⟩]
    ∧ (1 / 2 * (1 + 1 / 10) : ℝ) ≠ 1 / 2 + 1 / 10 := by
  constructor
  · have hk : splitWs (lower "abc".toList) = ["abc".toList] := by decide
    have hs : hasSubstr "abc".toList (lower abcRecord.text) = true := by decide
    unfold rerank
    rw [hk]
    simp only [List.map_cons, List.map_nil, List.foldl_cons, List.foldl_nil,
      hs, if_true]
    rfl
  · norm_num

lemma cosineSimilarity_one_one : cosineSimilarity [1] [1] = 1 := by
  have hsum : sumSquares [1] = 1 := by norm_num [sumSquares]
  have hdot : dotProduct [1] [1] = 1 := by norm_num [dotProduct]
  simp [cosineSimilarity, hsum, hdot, Real.sqrt_one]

lemma search_abcRecord_top5 : search [1] [abcRecord] 5 0 = [⟨abcRecord, 1⟩] := by
  have h1 : scoreRecords [1] [abcRecord] = [⟨abcRecord, 1⟩] := by
    simp [scoreRecords, abcRecord, cosineSimilarity_one_one]
  have h2 : keptResults [1] [abcRecord] 0 = [⟨abcRecord, 1⟩] := by
    simp only [keptResults, h1, List.filter_cons, List.filter_nil,
      decide_eq_true_eq]
    norm_num
  unfold search
  rw [h2]
  rfl

/-- Counterexample for C6: with configured options `{ topK := 0,
threshold := 0 }`, a one-record store and an omitted `topK` argument,
`retrieveByVector` returns one result (it passed the literal default `5` to
`search`), while `search` with the configured default `topK` returns none —
so the omitted-argument call does not use the configured `topK`. -/
theorem retrieveByVector_configured_topK_counterexample :
    retrieveByVector [abcRecord] (RetrieverOptions.mk 0 0) [1] none ≠
      search [1] [abcRecord] (RetrieverOptions.mk 0 0).topK
        (RetrieverOptions.mk 0 0).threshold := by
  have hl : retrieveByVector [abcRecord] (RetrieverOptions.mk 0 0) [1] none =
      [⟨abcRecord, 1⟩] := by
    unfold retrieveByVector
    simpa using search_abcRecord_top5
  have hr : search [1] [abcRecord] (RetrieverOptions.mk 0 0).topK
      (RetrieverOptions.mk 0 0).threshold = [] := by
    unfold search
    simp
  rw [hl, hr]
  simp

/-- C6 (amended): when the caller omits the `topK` argument,
`retrieveByVector` delegates to the store's `search` with the literal
parameter default `5` — not the configured `topK` — together with the
configured default threshold; the configured `topK` is used only when the
caller explicitly passes the falsy value `0`. -/
theorem retrieveByVector_omitted_topK_uses_five (store : List IndexRecord)
    (options : RetrieverOptions) (queryEmbedding : List ℚ) :
    retrieveByVector store options queryEmbedding none =
      search queryEmbedding store 5 options.threshold
    ∧ retrieveByVector store options queryEmbedding (some 0) =
      search queryEmbedding store options.topK options.threshold := by
  exact ⟨rfl, rfl⟩

/-- The `dimensionality = 384` declared by `OllamaEmbeddingProvider`. -/
def ollamaDimensionality : Nat := 384

/-- The `dimensionality = 1536` declared by `OpenAIEmbeddingProvider`. -/
def openaiDimensionality : Nat := 1536

/-- Model of `OllamaEmbeddingProvider.embed(text)`
(`src/rag/providers/embedding/ollama.ts`, lines 15-30).  The outcome of the
`axios.post` call is passed explicitly: `.error` models any thrown error
(unreachable endpoint, timeout, non-2xx status), `.ok none` a 2xx response
without an `embedding` field (the `|| []` fallback), `.ok (some v)` a
response carrying the vector.  On a thrown error the catch block returns
`new Array(this.dimensionality).fill(0)`. -/
def ollamaEmbed (text : Str) (response : Except Str (Option (List ℚ))) :
    List ℚ :=
  match text, response with
  | _, .error _ => List.replicate ollamaDimensionality 0
  | _, .ok none => []
  | _, .ok (some embedding) => embedding

/-- Model of `OpenAIEmbeddingProvider.embed(text)`
(`src/rag/providers/embedding/openai.ts`, lines 15-41): an unset (empty)
API key short-circuits to the zero vector; otherwise as for Ollama, with the
catch block returning `new Array(this.dimensionality).fill(0)`. -/
def openaiEmbed (apiKey text : Str) (response : Except Str (Option (List ℚ))) :
    List ℚ :=
  if apiKey = [] then List.replicate openaiDimensionality 0
  else
    match text, response with
    | _, .error _ => List.replicate openaiDimensionality 0
    | _, .ok none => []
    | _, .ok (some embedding) => embedding

/-- C7: for every input text, whenever the backend call fails (any thrown
error: unreachable endpoint, timeout, ...), `embed` returns the all-zero
vector of the provider's declared dimensionality (`List.replicate dim 0`),
for both providers, and — being a total function — does not raise. -/
theorem embed_failure_zero_vector (text e apiKey : Str) :
    ollamaEmbed text (.error e) = List.replicate ollamaDimensionality 0
    ∧ openaiEmbed apiKey text (.error e) =
      List.replicate openaiDimensionality 0 := by
  refine ⟨rfl, ?_⟩
  unfold openaiEmbed
  split <;> rfl

/-- JS `String.prototype.trim`: strip leading and trailing whitespace. -/
def trimChars (s : Str) : Str :=
  ((s.dropWhile Char.isWhitespace).reverse.dropWhile Char.isWhitespace).reverse

/-- Drop the `\r` that belongs to a `\r\n` separator; the argument is the
line accumulated in reverse, so the `\r` sits at its head. -/
def chopCr : List Char → List Char
  | '\r' :: rest => rest
  | l => l

/-- Worker for `content.split(/\r?\n/)`: `acc` is the current line in
reverse. -/
def splitLinesAux (acc : List Char) : List Char → List (List Char)
  | [] => [acc.reverse]
  | c :: cs =>
    if c = '\n' then (chopCr acc).reverse :: splitLinesAux [] cs
    else splitLinesAux (c :: acc) cs

/-- Model of `content.split(/\r?\n/)` from `RAGPluginImpl.parseRequirements`. -/
def splitLines (content : Str) : List Str := splitLinesAux [] content

/-- The test `/^\s*[-*]\s+/.test(line)`: optional leading whitespace, a `-`
or `*` marker, then at least one whitespace character. -/
def isBulletLine (l : Str) : Bool :=
  match l.dropWhile Char.isWhitespace with
  | c :: d :: _ => (c == '-' || c == '*') && d.isWhitespace
  | _ => false

/-- Model of `line.replace(/^\s*[-*]\s+/, '')` for a line on which the (greedy) bullet
regex matches: drop the leading whitespace, the marker character, and the
whitespace run after it.  (Only evaluated under the `isBulletLine` guard.) -/
def stripBullet (l : Str) : Str :=
  match l.dropWhile Char.isWhitespace with
  | _ :: rest => rest.dropWhile Char.isWhitespace
  | [] => l

/-- The `for (const line of lines)` loop of `RAGPluginImpl.parseRequirements`
(`src/src/rag/plugin-impl.ts`, lines 390-411), with the loop state
`currentAc` made explicit and the `acs.push(...)` calls emitted in order:
a bullet line pushes the pending AC (if its trim is truthy) and restarts
`currentAc` from the stripped line; a non-blank line is appended with a
single-space joiner only when `currentAc` is truthy (nonempty); after the
loop the pending AC is pushed if its trim is truthy. -/
def parseLoop (currentAc : Str) : List Str → List Str
  | [] => if trimChars currentAc = [] then [] else [trimChars currentAc]
  | l :: ls =>
    if isBulletLine l then
      (if trimChars currentAc = [] then [] else [trimChars currentAc]) ++
        parseLoop (trimChars (stripBullet l)) ls
    else if trimChars l ≠ [] ∧ currentAc ≠ [] then
      parseLoop (currentAc ++ ' ' :: trimChars l) ls
    else
      parseLoop currentAc ls

/-- Model of `RAGPluginImpl.parseRequirements(content)`. -/
def parseRequirements (content : Str) : List Str :=
  parseLoop [] (splitLines content)

/-- Counterexample for C9: the document `"- \n- foo"` has two bullet lines,
but the parser returns a single AC — a bullet line whose content is empty
after stripping the marker yields no AC, so the parser does not return one
AC per bullet line. -/
theorem parseRequirements_per_bullet_counterexample :
    parseRequirements "- \n- foo".toList = ["foo".toList]
    ∧ ((splitLines "- \n- foo".toList).filter isBulletLine).length = 2
    ∧ (parseRequirements "- \n- foo".toList).length ≠
      ((splitLines "- \n- foo".toList).filter isBulletLine).length := by
  refine ⟨by decide, by decide, by decide⟩

lemma length_dropWhile_le_self {α : Type} (p : α → Bool) (l : List α) :
    (l.dropWhile p).length ≤ l.length := by
  induction l with
  | nil => simp
  | cons a t ih =>
    rw [List.dropWhile_cons]
    split
    · exact ih.trans (Nat.le_succ _)
    · exact Nat.le_refl _

/-- The text of one acceptance-criterion block, per the spec's words: the
stripped bullet text followed by each non-blank continuation line, joined
with a single space. -/
def acText (start : Str) (cont : List Str) : Str :=
  (cont.filter (fun l => decide (trimChars l ≠ []))).foldl
    (fun acc l => acc ++ ' ' :: trimChars l) start


lemma acText_nil (start : Str) : acText start [] = start := rfl

lemma acText_cons_blank (start l : Str) (cont : List Str)
    (h : trimChars l = []) : acText start (l :: cont) = acText start cont := by
  simp [acText, List.filter_cons, h]

lemma acText_cons_nonblank (start l : Str) (cont : List Str)
    (h : trimChars l ≠ []) :
    acText start (l :: cont) = acText (start ++ ' ' :: trimChars l) cont := by
  simp [acText, List.filter_cons, h]

/-- The AC emitted for one finished block: nothing when no AC is open
(`cur = []`) or the accumulated text trims to empty; otherwise the trimmed
block text. -/
def emitAC (cur : Str) (cont : List Str) : List Str :=
  if trimChars (if cur = [] then [] else acText cur cont) = [] then []
  else [trimChars (if cur = [] then [] else acText cur cont)]

/-- The parser's intended blockwise behaviour spelled from the (amended)
spec: the continuation lines of the current block are everything up to the
next bullet line; an open AC (`cur ≠ []`, holding the stripped trimmed
bullet text) accumulates its non-blank continuations with a single-space
joiner and is emitted trimmed if nonempty; a bullet whose stripped text is
empty opens no AC (`cur = []`), so its continuation lines are dropped and it
contributes nothing; lines before the first bullet are likewise ignored;
each bullet line restarts the block from its stripped, trimmed text. -/
def specFrom (cur : Str) (lines : List Str) : List Str :=
  match hr : lines.dropWhile (fun l => !(isBulletLine l)) with
  | [] => emitAC cur (lines.takeWhile (fun l => !(isBulletLine l)))
  | b :: ls =>
      emitAC cur (lines.takeWhile (fun l => !(isBulletLine l))) ++
        specFrom (trimChars (stripBullet b)) ls
termination_by lines.length
decreasing_by
  have h := length_dropWhile_le_self (fun l => !(isBulletLine l)) lines
  rw [hr] at h
  simp only [List.length_cons] at h
  omega

lemma emitAC_nil_cur (cont : List Str) : emitAC [] cont = [] := by
  simp [emitAC, trimChars]

lemma emitAC_nil (cur : Str) :
    emitAC cur [] = if trimChars cur = [] then [] else [trimChars cur] := by
  by_cases hc : cur = [] <;> simp [emitAC, hc, acText_nil, trimChars]

lemma emitAC_blank (cur l : Str) (cont : List Str) (h : trimChars l = []) :
    emitAC cur (l :: cont) = emitAC cur cont := by
  by_cases hc : cur = [] <;>
    simp [emitAC, hc, acText_cons_blank _ _ _ h]

lemma emitAC_append (cur l : Str) (cont : List Str) (h : trimChars l ≠ [])
    (hcur : cur ≠ []) :
    emitAC cur (l :: cont) = emitAC (cur ++ ' ' :: trimChars l) cont := by
  have hcur' : cur ++ ' ' :: trimChars l ≠ [] := by simp
  simp [emitAC, hcur, hcur', acText_cons_nonblank _ _ _ h]

lemma specFrom_nil (cur : Str) :
    specFrom cur [] = if trimChars cur = [] then [] else [trimChars cur] := by
  unfold specFrom
  simp [emitAC_nil]

lemma specFrom_cons_bullet (cur l : Str) (ls : List Str)
    (hb : isBulletLine l = true) :
    specFrom cur (l :: ls) =
      (if trimChars cur = [] then [] else [trimChars cur]) ++
        specFrom (trimChars (stripBullet l)) ls := by
  have hd : List.dropWhile (fun x => !(isBulletLine x)) (l :: ls) = l :: ls := by
    simp [List.dropWhile_cons, hb]
  have ht : List.takeWhile (fun x => !(isBulletLine x)) (l :: ls) = [] := by
    simp [List.takeWhile_cons, hb]
  conv_lhs => unfold specFrom
  split
  · rename_i heq
    rw [hd] at heq
    exact absurd heq (List.cons_ne_nil _ _)
  · rename_i b ls₁ heq
    rw [hd] at heq
    injection heq with h1 h2
    subst h1
    subst h2
    rw [ht, emitAC_nil]

lemma specFrom_cons_pass (cur l : Str) (ls : List Str)
    (hb : isBulletLine l = false) (h : trimChars l = [] ∨ cur = []) :
    specFrom cur (l :: ls) = specFrom cur ls := by
  have hd : List.dropWhile (fun x => !(isBulletLine x)) (l :: ls) =
      List.dropWhile (fun x => !(isBulletLine x)) ls := by
    simp [List.dropWhile_cons, hb]
  have ht : List.takeWhile (fun x => !(isBulletLine x)) (l :: ls) =
      l :: List.takeWhile (fun x => !(isBulletLine x)) ls := by
    simp [List.takeWhile_cons, hb]
  have hemit : ∀ cont, emitAC cur (l :: cont) = emitAC cur cont := by
    intro cont
    rcases h with h | h
    · exact emitAC_blank _ _ _ h
    · rw [h, emitAC_nil_cur, emitAC_nil_cur]
  conv_lhs => unfold specFrom
  conv_rhs => unfold specFrom
  split
  · rename_i heq
    rw [hd] at heq
    split
    · rw [ht]
      exact hemit _
    · rename_i b' ls₁' heq₂
      rw [heq] at heq₂
      exact absurd heq₂.symm (List.cons_ne_nil _ _)
  · rename_i b ls₁ heq
    rw [hd] at heq
    split
    · rename_i heq₂
      rw [heq] at heq₂
      exact absurd heq₂ (List.cons_ne_nil _ _)
    · rename_i b' ls₁' heq₂
      rw [heq] at heq₂
      injection heq₂ with h1 h2
      subst h1
      subst h2
      rw [ht, hemit]

lemma specFrom_cons_append (cur l : Str) (ls : List Str)
    (hb : isBulletLine l = false) (hblank : trimChars l ≠ [])
    (hcur : cur ≠ []) :
    specFrom cur (l :: ls) = specFrom (cur ++ ' ' :: trimChars l) ls := by
  have hd : List.dropWhile (fun x => !(isBulletLine x)) (l :: ls) =
      List.dropWhile (fun x => !(isBulletLine x)) ls := by
    simp [List.dropWhile_cons, hb]
  have ht : List.takeWhile (fun x => !(isBulletLine x)) (l :: ls) =
      l :: List.takeWhile (fun x => !(isBulletLine x)) ls := by
    simp [List.takeWhile_cons, hb]
  have hemit : ∀ cont, emitAC cur (l :: cont) =
      emitAC (cur ++ ' ' :: trimChars l) cont :=
    fun cont => emitAC_append _ _ _ hblank hcur
  conv_lhs => unfold specFrom
  conv_rhs => unfold specFrom
  split
  · rename_i heq
    rw [hd] at heq
    split
    · rw [ht]
      exact hemit _
    · rename_i b' ls₁' heq₂
      rw [heq] at heq₂
      exact absurd heq₂.symm (List.cons_ne_nil _ _)
  · rename_i b ls₁ heq
    rw [hd] at heq
    split
    · rename_i heq₂
      rw [heq] at heq₂
      exact absurd heq₂ (List.cons_ne_nil _ _)
    · rename_i b' ls₁' heq₂
      rw [heq] at heq₂
      injection heq₂ with h1 h2
      subst h1
      subst h2
      rw [ht, hemit]

lemma parseLoop_eq_specFrom : ∀ (lines : List Str) (cur : Str),
    parseLoop cur lines = specFrom cur lines := by
  intro lines
  induction lines with
  | nil =>
    intro cur
    rw [specFrom_nil]
    rfl
  | cons l ls ih =>
    intro cur
    by_cases hb : isBulletLine l = true
    · rw [specFrom_cons_bullet _ _ _ hb]
      simp only [parseLoop, hb, if_true]
      rw [ih]
    · rw [Bool.not_eq_true] at hb
      by_cases hbl : trimChars l = []
      · rw [specFrom_cons_pass _ _ _ hb (Or.inl hbl)]
        have hstep : parseLoop cur (l :: ls) = parseLoop cur ls := by
          simp [parseLoop, hb, hbl]
        rw [hstep, ih]
      · by_cases hcur : cur = []
        · rw [specFrom_cons_pass _ _ _ hb (Or.inr hcur)]
          subst hcur
          have hstep : parseLoop [] (l :: ls) = parseLoop [] ls := by
            simp [parseLoop, hb]
          rw [hstep, ih]
        · rw [specFrom_cons_append _ _ _ hb hbl hcur]
          have hstep : parseLoop cur (l :: ls) =
              parseLoop (cur ++ ' ' :: trimChars l) ls := by
            simp [parseLoop, hb, hbl, hcur]
          rw [hstep, ih]

/-- C9 (amended): for every document content, the parser produces exactly the
blockwise acceptance criteria described by the spec, except that a bullet
line whose stripped text is empty opens no AC (it yields no AC and its
continuation lines are dropped); otherwise each bullet line starts an AC from
its marker-stripped, trimmed text, each subsequent non-blank non-bullet line
is appended with a single-space joiner, lines before the first bullet are
ignored, and every returned AC text is trimmed and nonempty —
`parseRequirements` coincides with the spec-side blockwise definition
`specFrom` applied to the document's lines. -/
theorem parseRequirements_blockwise (content : Str) :
    parseRequirements content = specFrom [] (splitLines content) := by
  unfold parseRequirements
  exact parseLoop_eq_specFrom (splitLines content) []
